import Mathlib

/-!
Verification of the mutation/scheduling core of SLOPTAFLpp
(`src/afl-fuzz-one.c`): branch-mask construction and queries, the havoc
stage's mutate/restore and bandit-reward logic, the rare-branch selector,
rare-branch trimming, the bandit selectors, and the ADWIN change detector.

Machine integers (`u8`, `u32`, `u64`) are modelled as `Nat`, with explicit
`% 2^32` where the C code can wrap.  Byte buffers are `List Nat` (each entry
a byte value).  External collaborators (the RNG, the executor, the
branch-hit oracle) are passed in as explicit arguments.
-/

namespace SloptAfl

/-- Truncation to 32 bits, for spots where the C code does `u32` arithmetic
that can wrap. -/
def u32 (n : Nat) : Nat := n % 4294967296

/-- The `FLIP_BIT` macro (src/afl-fuzz-one.c:1849-1856, repeated at 5331):
`_arf[(_bf) >> 3] ^= (128 >> ((_bf) & 7))`, i.e. XOR bit `128 >> (b & 7)`
into byte `b >> 3`.  Out-of-range positions leave the buffer unchanged
(`List.set` is a no-op), standing in for the C out-of-bounds write. -/
def flipBit (buf : List Nat) (pos : Nat) : List Nat :=
  buf.set (pos / 8) (buf.getD (pos / 8) 0 ^^^ (128 >>> (pos % 8)))

/-- `alloc_branch_mask` (src/afl-fuzz-one.c:1306-1319): `NULL` for size 0,
otherwise every byte set to 7 and the final byte overwritten with 4. -/
def alloc_branch_mask (size : Nat) : List Nat :=
  if size = 0 then []
  else (List.replicate size 7).set (size - 1) 4

/-- One pass of the deterministic-stage branch-mask construction: walk the
index list and, where the hit oracle answers true, replace the mask byte by
`upd i oldValue`.  Used for the three passes at
src/afl-fuzz-one.c:2033-2035 (overwrite), 2105-2120 (delete) and
2122-2140 (insert). -/
def detMaskPass (mask : List Nat) (upd : Nat → Nat → Nat) (hit : Nat → Bool)
    (idxs : List Nat) : List Nat :=
  idxs.foldl (fun m i => if hit i then m.set i (upd i (m.getD i 0)) else m) mask

/-- Branch mask built byte-by-byte by the deterministic stage in rare-branch
mode (src/afl-fuzz-one.c:1758, 2033-2035, 2098-2145).  The mask starts as
`ck_alloc(len+1)` zeroes; the walking-byte flip assigns `1` where the branch
is still hit (`hitO`), the delete pass adds `2` for positions `0..len-1`
(`hitD`), and the insert pass adds `4` for positions `0..len` (`hitI`).
The oracles report whether `hits_branch` held for the respective candidate
execution; the build is modelled to completion (no abandon mid-stage). -/
def buildDetBranchMask (len : Nat) (hitO hitD hitI : Nat → Bool) : List Nat :=
  let m0 := List.replicate (len + 1) 0
  let m1 := detMaskPass m0 (fun _ _ => 1) hitO (List.range len)
  let m2 := detMaskPass m1 (fun _ v => v + 2) hitD (List.range len)
  detMaskPass m2 (fun _ v => v + 4) hitI (List.range (len + 1))

/-- Half-open index range `[lo, bound)` as a list, matching a C
`for (j = lo; j < bound; j++)` loop. -/
def rangeU32 (lo bound : Nat) : List Nat := List.range' lo (bound - lo)

/-- Position map built by `get_random_modifiable_posn`
(src/afl-fuzz-one.c:1326-1368): scan the mask for maximal blocks of bytes
carrying `mod_type`, and for each block `[start, stop)` record the byte
positions `start .. stop - num_bytes` (`num_bytes = MAX(num_to_modify/8,1)`).
The upper bound `i - num_bytes + 1` is computed in `u32` arithmetic exactly
as in the source (it can wrap for wide writes near a block start). -/
def buildPositionMap (num_to_modify mod_type map_len : Nat)
    (branch_mask : List Nat) : List Nat :=
  let num_bytes := max (num_to_modify / 8) 1
  let step := fun (st : Option Nat × Bool × List Nat) (i : Nat) =>
    match st with
    | (prev, in0, acc) =>
      if branch_mask.getD i 0 &&& mod_type ≠ 0 then
        if in0 then (some i, false, acc) else (prev, in0, acc)
      else
        let acc' := if !in0 && prev.isSome then
            acc ++ rangeU32 (prev.getD 0) (u32 (i + 4294967296 - num_bytes + 1))
          else acc
        (prev, true, acc')
  let fin := (List.range map_len).foldl step (none, true, [])
  match fin with
  | (prev, in0, acc) =>
    if !in0 then
      acc ++ rangeU32 (prev.getD 0) (u32 (map_len + 4294967296 - num_bytes + 1))
    else acc

/-- `get_random_modifiable_posn` (src/afl-fuzz-one.c:1326-1380).  The two
`rand_below` draws are modelled by the caller-supplied values `r1`, `r2`
reduced modulo the required bound (`rand_below(afl, n)` returns a uniform
value below `n`); `none` models the `0xffffffff` failure return.  Note that
for `num_to_modify < 8` the source returns `position_map[...] + rand_below(8)`,
a byte index plus a sub-byte offset. -/
def get_random_modifiable_posn (num_to_modify mod_type map_len : Nat)
    (branch_mask : List Nat) (r1 r2 : Nat) : Option Nat :=
  let pm := buildPositionMap num_to_modify mod_type map_len branch_mask
  if pm.length ≠ 0 then
    let random_pos := r1 % pm.length
    if num_to_modify ≥ 8 then some (pm.getD random_pos 0)
    else some (pm.getD random_pos 0 + r2 % 8)
  else none

/-- Inner stacked loop of the havoc `FLIP_BIT1` operator
(src/afl-fuzz-one.c:3803-3826): repeat up to `use_stacking` times; each
sub-application queries `get_random_modifiable_posn(afl, 1, 1, temp_len,
branch_mask, position_map)`, breaks out on `0xffffffff`, records the
position into `mutation_pos[i]` and flips the bit.  `draws i` supplies the
two RNG values of sub-application `i`; the result is the mutated buffer,
the (partially overwritten) `mutation_pos` array, and the number of
sub-applications actually performed. -/
def havocBit1Go (temp_len : Nat) (branch_mask : List Nat)
    (draws : Nat → Nat × Nat) (buf mpos : List Nat) (i : Nat) :
    Nat → List Nat × List Nat × Nat
  | 0 => (buf, mpos, i)
  | k + 1 =>
    match get_random_modifiable_posn 1 1 temp_len branch_mask
        (draws i).1 (draws i).2 with
    | none => (buf, mpos, i)
    | some pos =>
      havocBit1Go temp_len branch_mask draws (flipBit buf pos)
        (mpos.set i pos) (i + 1) k

/-- The `FLIP_BIT1` havoc mutation with `use_stacking` sub-applications,
starting from the stale `mutation_pos` stack array `mpos` (the C array is
not cleared between iterations). -/
def havocBit1 (use_stacking temp_len : Nat) (branch_mask : List Nat)
    (draws : Nat → Nat × Nat) (buf mpos : List Nat) :
    List Nat × List Nat × Nat :=
  havocBit1Go temp_len branch_mask draws buf mpos 0 use_stacking

/-- Restore phase for the `BIT1` case (src/afl-fuzz-one.c:4820-4828):
`for (j = use_stacking - 1; j >= 0; j--) FLIP_BIT(out_buf, mutation_pos[j]);`
i.e. every one of the `use_stacking` recorded positions is replayed in
reverse, whether or not the corresponding sub-application ran. -/
def havocBit1Restore (use_stacking : Nat) (buf mpos : List Nat) : List Nat :=
  ((List.range use_stacking).reverse).foldl
    (fun b j => flipBit b (mpos.getD j 0)) buf

/-- Write the byte string `bytes` into `buf` at byte offset `pos`, the
byte-level effect of the 1-, 2- and 4-byte overwrites
`out_buf[pos] = v` / `*(u16*)(out_buf+pos) = v` / `*(u32*)(out_buf+pos) = v`
in the havoc cases of src/afl-fuzz-one.c:3828-4027. -/
def writeBytes (buf : List Nat) (pos : Nat) (bytes : List Nat) : List Nat :=
  buf.take pos ++ bytes ++ buf.drop (pos + bytes.length)

/-- Read `w` bytes of `buf` at byte offset `pos` (the value saved into
`mutation_data8/16/32[i]` before a 1-, 2- or 4-byte overwrite). -/
def readBytes (w : Nat) (buf : List Nat) (pos : Nat) : List Nat :=
  (buf.drop pos).take w

/-- Stacked `w`-byte overwrite loop of the havoc `BYTE1`/`BYTE2`/`BYTE4`
cases: each sub-application `(pos, new)` saves the old bytes at `pos` into
the data array and overwrites them with `new`.  Returns the mutated buffer
and the recorded `(position, saved bytes)` list in application order. -/
def havocByteGo (w : Nat) (buf : List Nat) :
    List (Nat × List Nat) → List Nat × List (Nat × List Nat)
  | [] => (buf, [])
  | (pos, new) :: rest =>
    let saved := readBytes w buf pos
    let out := havocByteGo w (writeBytes buf pos new) rest
    (out.1, (pos, saved) :: out.2)

/-- Restore phase for the `BYTE1`/`BYTE2`/`BYTE4` cases
(src/afl-fuzz-one.c:4831-4872): replay the recorded `(pos, data)` pairs in
reverse, writing each saved value back. -/
def havocByteRestore (buf : List Nat) (recs : List (Nat × List Nat)) :
    List Nat :=
  recs.reverse.foldl (fun b pd => writeBytes b pd.1 pd.2) buf

/-- Outcome of one havoc iteration for the bandit updates: either the
weight-based operator selector picked a masked arm (`maskedSkip`, the
`L_EXP_INVALID` path), or `common_fuzz_stuff` signalled abandon, or the
candidate executed and `newPaths` records whether `afl->queued_paths`
moved past `havoc_queued`. -/
inductive HavocPath where
  | maskedSkip : HavocPath
  | abandoned : HavocPath
  | executed : Bool → HavocPath
deriving DecidableEq

/-- Bandit updates performed by one havoc iteration
(src/afl-fuzz-one.c:3534-3537, 4790-4810 and 4895-4929), with the
`BATCHSIZE_BANDIT` and `MOPTWISE_BANDIT` configuration of the spec's
bandit subsystem enabled.  The result is the `(arm, reward)` update fed to
the operator-selector bandit and to the batch-size bandit (`none` = no
`add_reward` call this iteration):
on abandon both get reward 0 (4800-4810); after an execution both get 1
when new queue entries appeared and 0 otherwise (4895-4929); on the
masked-pick skip path the jump to `L_EXP_INVALID_2` (4921-4927) lands past
the batch-bandit update but still executes the operator-bandit
`ADD_REWARD(..., 0)`. -/
def havocBanditUpdates (path : HavocPath) (selCase selT : Nat) :
    Option (Nat × Nat) × Option (Nat × Nat) :=
  match path with
  | .maskedSkip => (some (selCase, 0), none)
  | .abandoned => (some (selCase, 0), some (selT, 0))
  | .executed true => (some (selCase, 1), some (selT, 1))
  | .executed false => (some (selCase, 0), some (selT, 0))

/-- Arm `i` is masked: the C tests `mask && mask[i]`, i.e. a non-`NULL`
mask array with a nonzero byte at `i`. -/
def maskedAt (mask : Option (List Nat)) (i : Nat) : Bool :=
  match mask with
  | none => false
  | some m => m.getD i 0 != 0

/-- State of `exppp_select_arm` that the selector itself reads or writes:
`t` and the pull counters (src/afl-fuzz-one.c:188-198). -/
structure ExpppSel where
  n_arms : Nat
  t : Nat
  pulls : List Nat
deriving DecidableEq, Repr

/-- `exppp_select_arm` (src/afl-fuzz-one.c:188-198): increment `t`; while
`t <= n_arms` play round-robin (`choice = t - 1`), afterwards draw from the
trust distribution — abstracted by `pickFromDist`, the result of
`choice_from_distribution` (a walk over double-precision trusts).  The
`mask` parameter is accepted but, exactly as in the source, never read. -/
def exppp_select_arm (s : ExpppSel) (mask : Option (List Nat))
    (pickFromDist : Nat) : ExpppSel × Nat :=
  let t' := s.t + 1
  let choice := if t' ≤ s.n_arms then t' - 1 else pickFromDist
  ({ s with
     t := t'
     pulls := s.pulls.set choice (s.pulls.getD choice 0 + 1) }, choice)

/-- State of `expix_select_arm`: `t`, the weight vector (doubles, modelled
as rationals) and the pull counters (src/afl-fuzz-one.c:200-215). -/
structure ExpixSel where
  n_arms : Nat
  t : Nat
  weights : List ℚ
  pulls : List Nat
deriving DecidableEq, Repr

/-- Cumulative-weight walk of `expix_select_arm` over the weight list:
return the first index at which the running sum of weights exceeds the
uniform draw `target`. -/
def expixWalkGo (target : ℚ) : List ℚ → ℚ → Nat → Option Nat
  | [], _, _ => none
  | w :: ws, acc, i =>
    let acc' := acc + w
    if target < acc' then some i else expixWalkGo target ws acc' (i + 1)

/-- `expix_select_arm` (src/afl-fuzz-one.c:200-215): increment `t`, then
walk the cumulative weights against the uniform draw `target`
(`gsl_rng_uniform`), falling back to arm `n_arms - 1`; the chosen arm's
pull counter is incremented.  The `mask` parameter is accepted but, exactly
as in the source, never read. -/
def expix_select_arm (s : ExpixSel) (mask : Option (List Nat))
    (target : ℚ) : ExpixSel × Nat :=
  let t' := s.t + 1
  let choice := (expixWalkGo target s.weights 0 0).getD (s.n_arms - 1)
  ({ s with
     t := t'
     pulls := s.pulls.set choice (s.pulls.getD choice 0 + 1) }, choice)

/-- `ts_select_arm` (src/afl-fuzz-one.c:701-723): argmax over the per-arm
Beta samples, skipping masked arms; `max_sampled` starts at `-1` and
`selected_idx` at 0.  `sampled i` stands for the `gsl_ran_beta` draw of arm
`i` (a double, modelled as a rational). -/
def ts_select_arm (n : Nat) (mask : Option (List Nat))
    (sampled : Nat → ℚ) : Nat :=
  ((List.range n).foldl
    (fun (st : ℚ × Nat) i =>
      if maskedAt mask i then st
      else if sampled i > st.1 then (sampled i, i) else st)
    (-1, 0)).2

/-- Selection loop of `uniform_select_arm`: return the `k`-th unmasked index
of `idxs`, or `none` when the loop falls through to `assert(0)`. -/
def uniformFind (mask : Option (List Nat)) : List Nat → Nat → Option Nat
  | [], _ => none
  | i :: rest, k =>
    if maskedAt mask i then uniformFind mask rest k
    else if k = 0 then some i else uniformFind mask rest (k - 1)

/-- Number of unmasked arms, the `cnt` of src/afl-fuzz-one.c:633-637. -/
def uniformCnt (n : Nat) (mask : Option (List Nat)) : Nat :=
  ((List.range n).filter (fun i => !maskedAt mask i)).length

/-- `uniform_select_arm` (src/afl-fuzz-one.c:629-647): `k` models the
`rand_below(afl, cnt)` draw (the RNG contract of the spec's §6 returns a
uniform value below its argument); the loop then returns the `k`-th
unmasked arm, and `none` models reaching the trailing `assert(0)`. -/
def uniform_select_arm (n : Nat) (mask : Option (List Nat)) (k : Nat) :
    Option Nat :=
  uniformFind mask (List.range n) k

/-- Shift loop of the highest-order-bit computation, with structural fuel
(the loop halves its argument, so any `fuel ≥ n` is enough). -/
def hobGo : Nat → Nat → Nat
  | 0, _ => 0
  | fuel + 1, n => if n ≤ 1 then 0 else hobGo fuel (n / 2) + 1

/-- Highest-order-bit computation of src/afl-fuzz-one.c:1103-1105:
`while (cur_hits >>= 1) highest_order_bit++`. -/
def hob (n : Nat) : Nat := hobGo n n

/-- Global state read and written by the rare-branch selector. -/
structure RbState where
  map_size : Nat
  hit_bits : Nat → Nat
  blacklist : List Nat
  rare_branch_exp : Nat
  max_rare_branches : Nat

/-- Scan loop of `get_lowest_hit_branch_ids` (src/afl-fuzz-one.c:1098-1121)
over the remaining branch indices, carrying the current
`rare_branch_exp`, the lowest highest-order-bit seen (`none` = `INT_MAX`)
and the result list; the loop stops early once the list holds
`max_rare_branches - 1` entries. -/
def glhbGo (hit : Nat → Nat) (bl : List Nat) (maxrb : Nat) :
    List Nat → Nat → Option Nat → List Nat → Nat × Option Nat × List Nat
  | [], exp, lowest, acc => (exp, lowest, acc)
  | i :: rest, exp, lowest, acc =>
    if acc.length ≥ u32 (maxrb + 4294967296 - 1) then (exp, lowest, acc)
    else if hit i > 0 then
      if i ∈ bl then glhbGo hit bl maxrb rest exp lowest acc
      else
        let h := hob (hit i)
        let lowest' := some (min h (lowest.getD h))
        if h < exp then
          if h + 1 < exp then glhbGo hit bl maxrb rest (h + 1) lowest' [i]
          else glhbGo hit bl maxrb rest exp lowest' (acc ++ [i])
        else glhbGo hit bl maxrb rest exp lowest' acc
    else glhbGo hit bl maxrb rest exp lowest acc

/-- `get_lowest_hit_branch_ids` (src/afl-fuzz-one.c:1093-1136): scan all
branches for ids whose hit count has a highest-order bit below
`rare_branch_exp` (strictly rarer finds reset the list and lower the
exponent); when nothing qualified, raise the exponent to `lowest_hob + 1`
and retry.  The bounded retry recursion is given explicit `fuel`; the
result is the id list (without its `-1` terminator) and the final
exponent. -/
def get_lowest_hit_branch_ids (fuel : Nat) (st : RbState) :
    List Nat × Nat :=
  match fuel with
  | 0 => ([], st.rare_branch_exp)
  | fuel + 1 =>
    match glhbGo st.hit_bits st.blacklist st.max_rare_branches
        (List.range st.map_size) st.rare_branch_exp none [] with
    | (exp', lowest, acc) =>
      if acc.isEmpty then
        match lowest with
        | some lh =>
          get_lowest_hit_branch_ids fuel { st with rare_branch_exp := lh + 1 }
        | none => ([], exp')
      else (acc, exp')

/-- Little-endian byte decomposition of a `u32` array element. -/
def wordLE (w : Nat) : List Nat :=
  [w % 256, w / 256 % 256, w / 65536 % 256, w / 16777216 % 256]

/-- View a `u32` array as its underlying byte array. -/
def wordsToBytes (l : List Nat) : List Nat :=
  l.foldr (fun w acc => wordLE w ++ acc) []

/-- Reassemble a little-endian byte array into `u32` array elements. -/
def bytesToWords : List Nat → List Nat
  | b0 :: b1 :: b2 :: b3 :: rest =>
    (b0 + 256 * b1 + 65536 * b2 + 16777216 * b3) :: bytesToWords rest
  | _ => []

/-- `memmove(arr + dstW, arr + srcW, n)` on a `u32` array, where `n` is a
count of BYTES — exactly the byte-granularity moves of
src/afl-fuzz-one.c:1164-1165, which pass `min_hit_index - j` (an element
count) as the byte size. -/
def memmoveWords (arr : List Nat) (dstW srcW n : Nat) : List Nat :=
  let bytes := wordsToBytes arr
  let chunk := (bytes.drop (4 * srcW)).take n
  bytesToWords (bytes.take (4 * dstW) ++ chunk ++ bytes.drop (4 * dstW + n))

/-- `contains_id` (src/afl-fuzz-one.c:1085-1090) over the `-1`-terminated
id array, modelled as membership in the prefix before the terminator. -/
def contains_id (x : Nat) (l : List Nat) : Bool := l.contains x

/-- Body of the `is_rare` branch of `is_rb_hit_mini`
(src/afl-fuzz-one.c:1153-1182) for one hit rare branch `cur`: the
first-element initialisation, the shift-and-insert pass over
`j < min_hit_index` (with its byte-sized `memmove`s and without a `break`),
the unconditional append at `j == min_hit_index`, and the increment of
`min_hit_index`.  State is `(branch_cts, branch_ids, min_hit_index)`. -/
def rbInsertElem (hit : Nat → Nat) (cur : Nat)
    (st : List Nat × List Nat × Nat) : List Nat × List Nat × Nat :=
  match st with
  | (cts0, ids0, minIdx) =>
    let cts1 := if minIdx = 0 then cts0.set 0 (hit cur) else cts0
    let ids1 := if minIdx = 0 then ids0.set 0 (cur + 1) else ids0
    let p := (List.range minIdx).foldl
      (fun (p : List Nat × List Nat) j =>
        if hit cur ≤ p.1.getD j 0 then
          ((memmoveWords p.1 (j + 1) j (minIdx - j)).set j (hit cur),
           (memmoveWords p.2 (j + 1) j (minIdx - j)).set j (cur + 1))
        else p)
      (cts1, ids1)
    (p.1.set minIdx (hit cur), p.2.set minIdx (cur + 1), minIdx + 1)

/-- `is_rb_hit_mini` (src/afl-fuzz-one.c:1142-1197): fetch the rarest
branch ids, then for every branch set in `trace` that is rare, run the
insertion of `rbInsertElem`; `none` models the `NULL` return when nothing
was hit, otherwise the returned array is the id list (entries stored as
`id + 1`) zero-terminated at `min_hit_index`. -/
def is_rb_hit_mini (fuel : Nat) (st : RbState) (trace : Nat → Bool) :
    Option (List Nat) :=
  let rarest := (get_lowest_hit_branch_ids fuel st).1
  let init : List Nat × List Nat × Nat :=
    (List.replicate st.max_rare_branches 0,
     List.replicate st.max_rare_branches 0, 0)
  match (List.range st.map_size).foldl
      (fun acc i =>
        if trace i && contains_id i rarest then rbInsertElem st.hit_bits i acc
        else acc) init with
  | (_, ids, minIdx) =>
    if minIdx = 0 then none else some (ids.set minIdx 0)

/-- Modelled from the spec: `next_pow2` (the helper is declared outside
`src/`); the least power of two that is at least `n`. -/
def next_p2 (n : Nat) : Nat := 2 ^ Nat.clog 2 n

/-- Modelled from the spec: the trim step constants `TRIM_START_STEPS`,
`TRIM_END_STEPS`, `TRIM_MIN_BYTES` live in the configuration header, which
is not under `src/`; they are abstracted as parameters. -/
structure TrimParams where
  startSteps : Nat
  endSteps : Nat
  minBytes : Nat

/-- Inner loop of `trim_case_rb` (src/afl-fuzz-one.c:1254-1290): walk
`remove_pos` over the buffer; each step executes the buffer with the window
`[remove_pos, remove_pos + trim_avail)` deleted (`fault` models a
`common_fuzz_stuff` abandon or `stop_soon`, jumping to
`abort_rb_trimming`); if `hits_branch` holds (`hitsB`) the deletion is
adopted and `remove_pos` stays, otherwise `remove_pos += remove_len`.
The `fuel` argument bounds the loop (each step shrinks the buffer or
advances `remove_pos`). -/
def trimInner (fault hitsB : List Nat → Bool) (remove_len : Nat) :
    Nat → List Nat → Nat → List Nat × Bool
  | 0, buf, _ => (buf, false)
  | fuel + 1, buf, remove_pos =>
    if remove_pos < buf.length then
      let trim_avail := min remove_len (buf.length - remove_pos)
      let candidate := buf.take remove_pos ++ buf.drop (remove_pos + trim_avail)
      if fault candidate then (buf, true)
      else if hitsB candidate then
        trimInner fault hitsB remove_len fuel candidate remove_pos
      else trimInner fault hitsB remove_len fuel buf (remove_pos + remove_len)
    else (buf, false)

/-- Outer loop of `trim_case_rb` (src/afl-fuzz-one.c:1241-1294): run the
inner walk while `remove_len >= MAX(len_p2 / TRIM_END_STEPS,
TRIM_MIN_BYTES)` (with `len_p2 = next_p2` of the current length, which the
source keeps updated after every adopted deletion), halving `remove_len`
each round. -/
def trimOuter (P : TrimParams) (fault hitsB : List Nat → Bool) :
    Nat → List Nat → Nat → List Nat × Bool
  | 0, buf, _ => (buf, false)
  | fuel + 1, buf, remove_len =>
    if remove_len ≥ max (next_p2 buf.length / P.endSteps) P.minBytes then
      let r := trimInner fault hitsB remove_len (2 * buf.length + 2) buf 0
      if r.2 then (r.1, true)
      else trimOuter P fault hitsB fuel r.1 (remove_len / 2)
    else (buf, false)

/-- `trim_case_rb` (src/afl-fuzz-one.c:1204-1302).  Returns the new length
and the (possibly shrunk) buffer: `in_len` is returned unchanged when
`rb_fuzzing == 0`, the value `0` is returned for inputs shorter than 5
bytes, and otherwise the trim loops run starting from
`remove_len = MAX(next_p2(len) / TRIM_START_STEPS, TRIM_MIN_BYTES)`. -/
def trim_case_rb (rb_fuzzing : Nat) (P : TrimParams)
    (fault hitsB : List Nat → Bool) (in_buf : List Nat) : Nat × List Nat :=
  if rb_fuzzing = 0 then (in_buf.length, in_buf)
  else if in_buf.length < 5 then (0, in_buf)
  else
    let remove_len := max (next_p2 in_buf.length / P.startSteps) P.minBytes
    let r := trimOuter P fault hitsB (remove_len + 1) in_buf remove_len
    (r.1.length, r.1)

/-- Caller of `trim_case_rb` (src/afl-fuzz-one.c:1690-1692): the trimmed
length is adopted only when it is positive. -/
def applyRbTrim (len trim_len : Nat) : Nat :=
  if trim_len > 0 then trim_len else len

/-- Modelled from the spec: the ADWIN configuration constants (`M` buckets
per node, the minimum-element thresholds and the drop interval) live in the
configuration header, which is not under `src/`; `shouldDrop` abstracts the
double-precision Hoeffding test of `adwin_should_drop`
(src/afl-fuzz-one.c:322-333), receiving `s0 n0 s1 n1` and the whole
window's `W` and `sum` (from which `ddv2`/`dd2_3` are computed). -/
structure AdwinParams where
  M : Nat
  minStart : Nat
  minCheck : Nat
  dropInterval : Nat
  shouldDrop : Nat → Nat → Nat → Nat → Nat → Nat → Bool

/-- ADWIN instance (src/afl-fuzz-one.c:243-300): the doubly linked node
list is a `List` of nodes, each node the list of its window sums with the
oldest window in front (`sum[0]`); node `k` (head = `k = 0`) holds windows
of `2^k` samples each, `lastIdx` is `last_node_idx`. -/
structure Adwin where
  nodes : List (List Nat)
  W : Nat
  sum : Nat
  lastIdx : Nat
  numAdd : Nat
deriving DecidableEq, Repr

/-- `init_adwin` (src/afl-fuzz-one.c:245-248): a single empty node. -/
def initAdwin : Adwin :=
  { nodes := [[]], W := 0, sum := 0, lastIdx := 0, numAdd := 0 }

/-- Node walk of `adwin_normlize_buckets` (src/afl-fuzz-one.c:302-320):
while the current node holds more than `M` windows, fold its two oldest
windows into one window of the next node (creating a tail node when
absent), then continue at that next node.  Returns the rewritten node list
and the number of nodes created (each bumping `last_node_idx`). -/
def adwin_normlize_go (M : Nat) : List Nat → List (List Nat) →
    List (List Nat) × Nat
  | node, rest =>
    if node.length ≤ M then (node :: rest, 0)
    else
      let s := node.getD 0 0 + node.getD 1 0
      match rest with
      | [] => (node.drop 2 :: [[s]], 1)
      | m :: rest' =>
        let out := adwin_normlize_go M (m ++ [s]) rest'
        (node.drop 2 :: out.1, out.2)

/-- `adwin_normlize_buckets` applied to an instance. -/
def adwin_normlize_buckets (M : Nat) (a : Adwin) : Adwin :=
  let out := adwin_normlize_go M (a.nodes.headD []) a.nodes.tail
  { a with
    nodes := out.1
    lastIdx := a.lastIdx + out.2 }

/-- `adwin_expire_last_window` (src/afl-fuzz-one.c:285-300): deduct
`2^last_node_idx` from `W` and the tail's oldest window from `sum`, drop
that window, and free the tail node when it became empty and is not the
head. -/
def adwin_expire_last_window (a : Adwin) : Adwin :=
  let tl := (a.nodes.getLast?).getD []
  let W' := a.W - 2 ^ a.lastIdx
  let sum' := a.sum - tl.getD 0 0
  let tl' := tl.drop 1
  if tl'.isEmpty && decide (2 ≤ a.nodes.length) then
    { nodes := a.nodes.dropLast, W := W', sum := sum'
      lastIdx := a.lastIdx - 1, numAdd := a.numAdd }
  else
    { nodes := a.nodes.dropLast ++ [tl'], W := W', sum := sum'
      lastIdx := a.lastIdx, numAdd := a.numAdd }

/-- Window scan within one node during change detection
(src/afl-fuzz-one.c:354-377): move each window from the newer side
`(n1, s1)` to the older side `(n0, s0)`; stop the whole scan (`some false`)
when `n1` drops below the check threshold, skip the test while `n0` is
below it, and report `some true` when the drop test fires. -/
def adwinWalkWins (P : AdwinParams) (W sm exp : Nat) :
    List Nat → Nat → Nat → Nat → Nat →
    Option Bool × (Nat × Nat × Nat × Nat)
  | [], n0, s0, n1, s1 => (none, (n0, s0, n1, s1))
  | w :: ws, n0, s0, n1, s1 =>
    let n0' := n0 + 2 ^ exp
    let n1' := n1 - 2 ^ exp
    let s0' := s0 + w
    let s1' := s1 - w
    if n1' < P.minCheck then (some false, (n0', s0', n1', s1'))
    else if n0' < P.minCheck then adwinWalkWins P W sm exp ws n0' s0' n1' s1'
    else if P.shouldDrop s0' n0' s1' n1' W sm then
      (some true, (n0', s0', n1', s1'))
    else adwinWalkWins P W sm exp ws n0' s0' n1' s1'

/-- Node iteration of the change-detection scan: tail to head, with the
node exponent decreasing from `last_node_idx`. -/
def adwinWalkNodes (P : AdwinParams) (W sm : Nat) :
    List (List Nat) → Nat → Nat × Nat × Nat × Nat → Bool
  | [], _, _ => false
  | node :: rest, exp, (n0, s0, n1, s1) =>
    match adwinWalkWins P W sm exp node n0 s0 n1 s1 with
    | (some v, _) => v
    | (none, acc) => adwinWalkNodes P W sm rest (exp - 1) acc

/-- One pass of `adwin_drop_last_till_identical`: does any split of the
current window trigger the drop test? -/
def adwinFindDrop (P : AdwinParams) (a : Adwin) : Bool :=
  adwinWalkNodes P a.W a.sum a.nodes.reverse a.lastIdx (0, 0, a.W, a.sum)

/-- Total number of windows held by the instance, a bound on the number of
expirations one detection call can perform. -/
def adwinTotalWindows (a : Adwin) : Nat :=
  (a.nodes.map List.length).sum

/-- Outer `while (1)` of `adwin_drop_last_till_identical`
(src/afl-fuzz-one.c:338-384), without the `ADWIN_ADAPTIVE_RESETTING`
variant: re-scan from scratch; when the scan fires, expire the oldest
window and repeat, else stop.  Each expiration removes one window, so the
caller's fuel makes the recursion total. -/
def adwinDropLoop (P : AdwinParams) : Nat → Adwin → Adwin
  | 0, a => a
  | fuel + 1, a =>
    if adwinFindDrop P a then
      adwinDropLoop P fuel (adwin_expire_last_window a)
    else a

/-- `adwin_drop_last_till_identical` (src/afl-fuzz-one.c:335-385). -/
def adwin_drop_last_till_identical (P : AdwinParams) (a : Adwin) : Adwin :=
  if a.W < P.minStart then a
  else adwinDropLoop P (adwinTotalWindows a + 1) a

/-- `adwin_add_elem` (src/afl-fuzz-one.c:387-401): count and sum the new
reward, append it as a fresh window of node 0, normalise the buckets, and
every `dropInterval` adds run change detection. -/
def adwin_add_elem (P : AdwinParams) (a : Adwin) (reward : Nat) : Adwin :=
  let a1 : Adwin :=
    { nodes := ((a.nodes.headD []) ++ [reward]) :: a.nodes.tail
      W := a.W + 1
      sum := a.sum + reward
      lastIdx := a.lastIdx
      numAdd := a.numAdd }
  let a2 := adwin_normlize_buckets P.M a1
  let numAdd' := a2.numAdd + 1
  if numAdd' ≠ P.dropInterval then { a2 with numAdd := numAdd' }
  else adwin_drop_last_till_identical P { a2 with numAdd := 0 }

/-- Sample count implied by the bucket list: `Σ_k |node_k| · 2^k`, with `k`
starting at the given exponent. -/
def nodeWeight : List (List Nat) → Nat → Nat
  | [], _ => 0
  | n :: rest, k => n.length * 2 ^ k + nodeWeight rest (k + 1)

/-- Grand total of all window sums of the bucket list. -/
def nodesTotal (ns : List (List Nat)) : Nat :=
  (ns.map fun n => n.sum).sum

/-- ADWIN structural invariant: `W` counts the samples implied by the
bucket list, `sum` is the grand total of the window sums, `last_node_idx`
addresses the tail node, and every node but the head is nonempty. -/
def AdwinInv (a : Adwin) : Prop :=
  a.W = nodeWeight a.nodes 0 ∧
  a.sum = nodesTotal a.nodes ∧
  a.lastIdx + 1 = a.nodes.length ∧
  ∀ n ∈ a.nodes.tail, n ≠ []

instance (a : Adwin) : Decidable (AdwinInv a) := by
  unfold AdwinInv; infer_instance

/-- Exp3-IX state as touched by `expix_add_reward`
(src/afl-fuzz-one.c:217-241): `K` arms, the step counter, the
double-precision weights and cumulative losses (modelled as reals) and the
integer reward totals. -/
structure ExpixR (K : Nat) where
  t : Nat
  weights : Fin K → ℝ
  losses : Fin K → ℝ
  total_rewards : Fin K → ℤ

/-- `expix_add_reward` (src/afl-fuzz-one.c:217-241): add `(int)reward` to
the arm's total (rewards are 0/1, so the cast is `⌊reward⌋`), compute
`η = sqrt(2·ln(K)/K/t)` and `γ = η/2`, add the implicit-exploration loss
`(1−r)/(w_arm+γ)` to the arm's cumulative loss, then rebuild every weight
as `exp(−η·(ℓ_i − min ℓ))` and divide by their sum. -/
noncomputable def expix_add_reward {K : Nat} [NeZero K] (s : ExpixR K)
    (arm : Fin K) (reward : ℝ) : ExpixR K :=
  let eta := Real.sqrt (2 * Real.log K / K / s.t)
  let gamma := eta / 2
  let loss := (1 - reward) / (s.weights arm + gamma)
  let losses' := Function.update s.losses arm (s.losses arm + loss)
  let minLoss := Finset.univ.inf' Finset.univ_nonempty losses'
  let denom := ∑ i, Real.exp (-eta * (losses' i - minLoss))
  { t := s.t
    weights := fun i => Real.exp (-eta * (losses' i - minLoss)) / denom
    losses := losses'
    total_rewards :=
      Function.update s.total_rewards arm (s.total_rewards arm + ⌊reward⌋) }

/-- Concrete rare-branch state exercising `is_rb_hit_mini`: four branches,
branch 1 hit 6 times and branch 2 hit 5 times (both of highest-order bit 2,
rare for `rare_branch_exp = 3`), empty blacklist,
`max_rare_branches = 4`. -/
def rbStateEx : RbState :=
  { map_size := 4
    hit_bits := fun i => if i = 1 then 6 else if i = 2 then 5 else 0
    blacklist := []
    rare_branch_exp := 3
    max_rare_branches := 4 }

/-! ## Helper lemmas on list reads and writes -/

theorem getD_set_ne (l : List Nat) (i j v : Nat) (h : i ≠ j) :
    (l.set i v).getD j 0 = l.getD j 0 := by
  simp [List.getD_eq_getElem?_getD, List.getElem?_set_ne h]

theorem getD_set_self (l : List Nat) (i v : Nat) (h : i < l.length) :
    (l.set i v).getD i 0 = v := by
  simp [List.getD_eq_getElem?_getD, List.getElem?_set_self, h]

theorem set_getD_self (l : List Nat) (i : Nat) :
    l.set i (l.getD i 0) = l := by
  induction l generalizing i with
  | nil => rfl
  | cons x xs ih =>
    cases i with
    | zero => simp [List.getD_cons_zero]
    | succ n =>
      rw [List.getD_cons_succ]
      show x :: xs.set n (xs.getD n 0) = x :: xs
      rw [ih]

theorem set_of_length_le (l : List Nat) (i v : Nat) (h : l.length ≤ i) :
    l.set i v = l := by
  induction l generalizing i with
  | nil => rfl
  | cons x xs ih =>
    cases i with
    | zero => simp at h
    | succ n =>
      simp only [List.length_cons] at h
      simp [List.set, ih n (by omega)]

/-! ## C2: branch-mask length and trailing byte -/

theorem detMaskPass_length (upd : Nat → Nat → Nat) (hit : Nat → Bool)
    (idxs : List Nat) (m : List Nat) :
    (detMaskPass m upd hit idxs).length = m.length := by
  induction idxs generalizing m with
  | nil => rfl
  | cons j rest ih =>
    simp only [detMaskPass, List.foldl_cons]
    by_cases hj : hit j = true
    · simpa [detMaskPass, hj] using (ih (m.set j (upd j (m.getD j 0))))
    · simpa [detMaskPass, hj] using ih m

theorem detMaskPass_getD_notin (upd : Nat → Nat → Nat) (hit : Nat → Bool)
    (idxs : List Nat) (m : List Nat) (i : Nat) (h : i ∉ idxs) :
    (detMaskPass m upd hit idxs).getD i 0 = m.getD i 0 := by
  induction idxs generalizing m with
  | nil => rfl
  | cons j rest ih =>
    have hji : j ≠ i := fun hji => h (hji ▸ List.mem_cons_self j rest)
    have hrest : i ∉ rest := fun hr => h (List.mem_cons_of_mem j hr)
    simp only [detMaskPass, List.foldl_cons]
    by_cases hj : hit j = true
    · simpa [detMaskPass, hj] using
        ((ih (m.set j (upd j (m.getD j 0))) hrest).trans
          (getD_set_ne m j i _ hji))
    · simpa [detMaskPass, hj] using ih m hrest

theorem detMaskPass_append (upd : Nat → Nat → Nat) (hit : Nat → Bool)
    (xs ys : List Nat) (m : List Nat) :
    detMaskPass m upd hit (xs ++ ys) =
      detMaskPass (detMaskPass m upd hit xs) upd hit ys := by
  simp [detMaskPass, List.foldl_append]

/-- C1: during the havoc stage, mutations under a branch mask are claimed
to touch only byte positions whose mask byte carries the required flag —
in particular each stacked `FLIP_BIT1` sub-application is claimed to flip
a byte with `OVERWRITE_SAFE` set.  Evaluating the code at a failing input
refutes this: with a 16-byte mask whose only `OVERWRITE_SAFE` byte is
position 5, the query `get_random_modifiable_posn(1, 1, ...)` (exactly the
`FLIP_BIT1` call of src/afl-fuzz-one.c:3816) returns `5 + rand_below(8)`,
here `8`; `FLIP_BIT(out_buf, 8)` then mutates byte `8 >> 3 = 1`, whose
mask byte has no `OVERWRITE_SAFE` flag — the position map holds byte
indices while the caller consumes the result as a bit index. -/
theorem C1_flip_bit1_escapes_overwrite_mask :
    get_random_modifiable_posn 1 1 16 ((List.replicate 16 0).set 5 1) 0 3 =
      some 8 ∧
    flipBit (List.replicate 16 0) 8 = (List.replicate 16 0).set 1 128 ∧
    ((List.replicate 16 0).set 5 1).getD 1 0 &&& 1 = 0 := by
  decide

/-- C2 counterexample: the branch mask built byte-by-byte by the
deterministic stage does NOT always carry `INSERT_BEFORE_SAFE` on its final
byte: with input length 1 and every `hits_branch` probe failing, position
`L = 1` of the mask has no bit set at all (src/afl-fuzz-one.c:2124-2140
adds 4 only when the insertion candidate still hit the branch). -/
theorem C2_det_mask_final_byte_counterexample :
    (buildDetBranchMask 1 (fun _ => false) (fun _ => false)
        (fun _ => false)).getD 1 0 &&& 4 = 0 := by
  decide

/-- C2 (amended): every branch mask for an input of length `L` has length
`L + 1`.  Permissive masks from `alloc_branch_mask` end in the byte `4`,
i.e. `INSERT_BEFORE_SAFE` is always set there; for the byte-by-byte masks
of the deterministic rare-branch stage, position `L` carries
`INSERT_BEFORE_SAFE` exactly when the candidate with a byte inserted at
position `L` still hit the target branch. -/
theorem C2_branch_mask_length_and_final_byte (L : Nat)
    (hitO hitD hitI : Nat → Bool) :
    (alloc_branch_mask (L + 1)).length = L + 1 ∧
    (alloc_branch_mask (L + 1)).getD L 0 = 4 ∧
    (buildDetBranchMask L hitO hitD hitI).length = L + 1 ∧
    (buildDetBranchMask L hitO hitD hitI).getD L 0 =
      (if hitI L then 4 else 0) := by
  refine ⟨?_, ?_, ?_, ?_⟩
  · simp [alloc_branch_mask]
  · have hlen : L < ((List.replicate (L + 1) (7 : Nat))).length := by simp
    simp only [alloc_branch_mask, Nat.succ_ne_zero, if_false]
    simpa using getD_set_self (List.replicate (L + 1) 7) L 4 hlen
  · simp [buildDetBranchMask, detMaskPass_length]
  · have h0 : (List.replicate (L + 1) (0 : Nat)).getD L 0 = 0 := by
      simp [List.getD_eq_getElem?_getD]
    have hnot : L ∉ List.range L := by simp
    have h1 := detMaskPass_getD_notin (fun _ _ => 1) hitO (List.range L)
      (List.replicate (L + 1) 0) L hnot
    have h2 := detMaskPass_getD_notin (fun _ v => v + 2) hitD (List.range L)
      (detMaskPass (List.replicate (L + 1) 0) (fun _ _ => 1) hitO
        (List.range L)) L hnot
    simp only [buildDetBranchMask]
    rw [List.range_succ, detMaskPass_append]
    set m2 := detMaskPass
      (detMaskPass (List.replicate (L + 1) 0) (fun _ _ => 1) hitO
        (List.range L)) (fun _ v => v + 2) hitD (List.range L) with hm2
    set m3 := detMaskPass m2 (fun _ v => v + 4) hitI (List.range L) with hm3
    have hm3L : m3.getD L 0 = 0 := by
      rw [hm3, detMaskPass_getD_notin _ _ _ _ _ hnot, h2, h1, h0]
    have hm3len : L < m3.length := by
      rw [hm3, detMaskPass_length, hm2, detMaskPass_length,
        detMaskPass_length]
      simp
    by_cases hI : hitI L = true
    · simp only [detMaskPass, List.foldl_cons, List.foldl_nil, hI, if_true]
      rw [getD_set_self m3 L (m3.getD L 0 + 4) hm3len, hm3L]
    · simp only [detMaskPass, List.foldl_cons, List.foldl_nil, hI]
      simpa using hm3L

/-- C5: `is_rb_hit_mini` is claimed to return exactly the rare branches hit
by the trace, sorted by ascending hit count with ties broken by id.
Evaluating the code at a failing input refutes this: with branches 1 and 2
both rare (hit counts 6 and 5) and both hit by the trace, the returned
array is `[3, 3, 0, 0]` — branch 2 (stored as `2 + 1 = 3`) twice, branch 1
(which would be stored as `2`) dropped — instead of the claimed
`[3, 2, 0, 0]`.  The byte-sized `memmove`s of src/afl-fuzz-one.c:1164-1165
and the missing `break` corrupt the insertion. -/
theorem C5_is_rb_hit_mini_failing_input :
    is_rb_hit_mini 4 rbStateEx (fun i => i == 1 || i == 2) =
      some [3, 3, 0, 0] ∧
    (2 : Nat) ∉ [3, 3, 0, 0].take 2 ∧
    ([3, 3, 0, 0].take 2).count 3 = 2 ∧
    rbStateEx.hit_bits 1 = 6 ∧ rbStateEx.hit_bits 2 = 5 := by
  refine ⟨by decide, by decide, by decide, rfl, rfl⟩

/-- C6 counterexample: `trim_case_rb` on an input of length 3 (< 5) leaves
the buffer untouched but returns `0`, not the original length 3
(src/afl-fuzz-one.c:1224 is `return 0`, not `return in_len`). -/
theorem C6_short_input_counterexample :
    trim_case_rb 1 ⟨16, 1024, 4⟩ (fun _ => false) (fun _ => false)
        [1, 2, 3] = (0, [1, 2, 3]) ∧ (0 : Nat) ≠ 3 := by
  exact ⟨by decide, by decide⟩

/-- C6 (amended): in rare-branch mode, `trim_case_rb` applied to any input
buffer shorter than 5 bytes leaves the buffer contents untouched and
returns the length `0` — a sentinel which its caller
(src/afl-fuzz-one.c:1690-1692) treats as "keep the original length". -/
theorem C6_short_input_trim (rb : Nat) (P : TrimParams)
    (fault hitsB : List Nat → Bool) (buf : List Nat)
    (hrb : rb ≠ 0) (hlen : buf.length < 5) :
    trim_case_rb rb P fault hitsB buf = (0, buf) ∧
    applyRbTrim buf.length 0 = buf.length := by
  constructor
  · simp [trim_case_rb, hrb, hlen]
  · simp [applyRbTrim]

/-- C6 witness: the amended statement applied at a concrete short input. -/
theorem C6_short_input_trim_witness :
    trim_case_rb 2 ⟨16, 1024, 4⟩ (fun _ => true) (fun _ => true)
        [9, 9] = (0, [9, 9]) ∧
    applyRbTrim 2 0 = 2 :=
  C6_short_input_trim 2 ⟨16, 1024, 4⟩ (fun _ => true) (fun _ => true)
    [9, 9] (by decide) (by decide)

/-! ## C10: the uniform selector returns an unmasked arm -/

theorem uniformFind_spec (mask : Option (List Nat)) :
    ∀ (l : List Nat) (k : Nat),
      k < (l.filter (fun i => !maskedAt mask i)).length →
      ∃ i, uniformFind mask l k = some i ∧ i ∈ l ∧
        maskedAt mask i = false := by
  intro l
  induction l with
  | nil => intro k hk; simp at hk
  | cons x rest ih =>
    intro k hk
    by_cases hx : maskedAt mask x = true
    · simp only [List.filter_cons, hx] at hk
      simp only [uniformFind, hx, if_true]
      obtain ⟨i, h1, h2, h3⟩ := ih k (by simpa using hk)
      exact ⟨i, h1, List.mem_cons_of_mem x h2, h3⟩
    · have hx' : maskedAt mask x = false := by
        cases h : maskedAt mask x with
        | false => rfl
        | true => exact absurd h hx
      simp only [List.filter_cons, hx', Bool.not_false, if_true,
        List.length_cons] at hk
      simp only [uniformFind, hx', Bool.false_eq_true, if_false]
      cases k with
      | zero => exact ⟨x, rfl, List.mem_cons_self x rest, hx'⟩
      | succ k =>
        obtain ⟨i, h1, h2, h3⟩ := ih k (by omega)
        exact ⟨i, by simpa using h1, List.mem_cons_of_mem x h2, h3⟩

/-- C10: whenever the bandit has at least one unmasked arm and the
`rand_below(afl, cnt)` draw obeys its contract (`k < cnt`, `cnt` the number
of unmasked arms), `uniform_select_arm` returns `some` index of an
unmasked arm below `n_arms` — in particular the `assert(0)` fall-through
(`none`) is unreachable. -/
theorem C10_uniform_select_arm_unmasked (n : Nat) (mask : Option (List Nat))
    (k : Nat) (hk : k < uniformCnt n mask) :
    ∃ i, uniform_select_arm n mask k = some i ∧ i < n ∧
      maskedAt mask i = false := by
  obtain ⟨i, h1, h2, h3⟩ := uniformFind_spec mask (List.range n) k hk
  exact ⟨i, h1, List.mem_range.mp h2, h3⟩

/-- C10 witness: three arms, arms 0 and 2 masked, draw 0 → arm 1. -/
theorem C10_uniform_select_arm_unmasked_witness :
    ∃ i, uniform_select_arm 3 (some [1, 0, 1]) 0 = some i ∧ i < 3 ∧
      maskedAt (some [1, 0, 1]) i = false :=
  C10_uniform_select_arm_unmasked 3 (some [1, 0, 1]) 0 (by decide)

/-! ## C4: both bandits are rewarded identically on executed iterations -/

/-- C4 counterexample: a havoc iteration in which the weight-based operator
selector picked a masked arm refutes the claim that in EVERY havoc
iteration both bandits are updated with the same reward.  On the
`L_EXP_INVALID_2` path (src/afl-fuzz-one.c:4921-4927) the operator bandit
is updated with reward 0 while the batch-size bandit receives no
`add_reward` call at all (second component `none`). -/
theorem C4_masked_skip_counterexample :
    havocBanditUpdates HavocPath.maskedSkip 3 2 = (some (3, 0), none) := by
  decide

/-- C4 (amended): in every havoc iteration that reaches the execution step,
the operator-selector bandit and the batch-size bandit are updated with
one and the same reward — 0 when `common_fuzz_stuff` signalled abandon, 1
when new queue entries appeared during the iteration, and 0 otherwise;
in an iteration where the weight-based operator selector picked a masked
arm, only the operator-selector bandit is updated (with reward 0) and the
batch-size bandit is not updated. -/
theorem C4_havoc_reward_both_bandits :
    (∀ (path : HavocPath) (selCase selT : Nat),
        path ≠ HavocPath.maskedSkip →
        ∃ r, havocBanditUpdates path selCase selT =
            (some (selCase, r), some (selT, r)) ∧
          r = (match path with
            | HavocPath.maskedSkip => 0
            | HavocPath.abandoned => 0
            | HavocPath.executed b => if b then 1 else 0)) ∧
    (∀ selCase selT : Nat,
        havocBanditUpdates HavocPath.maskedSkip selCase selT =
          (some (selCase, 0), none)) := by
  constructor
  · intro path selCase selT h
    cases path with
    | maskedSkip => exact absurd rfl h
    | abandoned => exact ⟨0, rfl, rfl⟩
    | executed b =>
      cases b with
      | false => exact ⟨0, rfl, rfl⟩
      | true => exact ⟨1, rfl, rfl⟩
  · intro selCase selT
    rfl

/-- C4 witness: an executed iteration that found new queue entries rewards
both bandits with 1. -/
theorem C4_havoc_reward_both_bandits_witness :
    ∃ r, havocBanditUpdates (HavocPath.executed true) 3 2 =
        (some (3, r), some (2, r)) ∧
      r = (match HavocPath.executed true with
        | HavocPath.maskedSkip => 0
        | HavocPath.abandoned => 0
        | HavocPath.executed b => if b then 1 else 0) :=
  C4_havoc_reward_both_bandits.1 (HavocPath.executed true) 3 2 (by decide)

/-! ## C7: masked arms and the bandit selectors -/

theorem ts_fold_keep (mask : Option (List Nat)) (sampled : Nat → ℚ)
    (hs : ∀ i, 0 ≤ sampled i) (l : List Nat) :
    ∀ st : ℚ × Nat, 0 ≤ st.1 → maskedAt mask st.2 = false →
      0 ≤ (l.foldl (fun (st : ℚ × Nat) i =>
          if maskedAt mask i then st
          else if sampled i > st.1 then (sampled i, i) else st) st).1 ∧
      maskedAt mask (l.foldl (fun (st : ℚ × Nat) i =>
          if maskedAt mask i then st
          else if sampled i > st.1 then (sampled i, i) else st) st).2
        = false := by
  induction l with
  | nil => intro st h1 h2; exact ⟨h1, h2⟩
  | cons x rest ih =>
    intro st h1 h2
    simp only [List.foldl_cons]
    by_cases hx : maskedAt mask x = true
    · simpa [hx] using ih st h1 h2
    · have hx' : maskedAt mask x = false := by
        cases h : maskedAt mask x with
        | false => rfl
        | true => exact absurd h hx
      by_cases hgt : sampled x > st.1
      · simpa [hx', hgt] using ih (sampled x, x) (hs x) hx'
      · simpa [hx', hgt] using ih st h1 h2

theorem ts_fold_unmasked (mask : Option (List Nat)) (sampled : Nat → ℚ)
    (hs : ∀ i, 0 ≤ sampled i) (l : List Nat) :
    ∀ st : ℚ × Nat, (0 ≤ st.1 → maskedAt mask st.2 = false) →
      (∃ i ∈ l, maskedAt mask i = false) →
      maskedAt mask (l.foldl (fun (st : ℚ × Nat) i =>
          if maskedAt mask i then st
          else if sampled i > st.1 then (sampled i, i) else st) st).2
        = false := by
  induction l with
  | nil => intro st _ hex; simp at hex
  | cons x rest ih =>
    intro st hst hex
    simp only [List.foldl_cons]
    by_cases hx : maskedAt mask x = true
    · obtain ⟨i, hi, hiu⟩ := hex
      have hir : i ∈ rest := by
        rcases List.mem_cons.mp hi with h | h
        · subst h; rw [hx] at hiu; exact absurd hiu (by simp)
        · exact h
      simpa [hx] using ih st hst ⟨i, hir, hiu⟩
    · have hx' : maskedAt mask x = false := by
        cases h : maskedAt mask x with
        | false => rfl
        | true => exact absurd h hx
      by_cases hgt : sampled x > st.1
      · simp only [hx', Bool.false_eq_true, if_false, hgt, if_true]
        exact (ts_fold_keep mask sampled hs rest (sampled x, x) (hs x) hx').2
      · have h1 : 0 ≤ st.1 := le_trans (hs x) (not_lt.mp hgt)
        simp only [hx', Bool.false_eq_true, if_false, hgt, if_false]
        exact (ts_fold_keep mask sampled hs rest st h1 (hst h1)).2

/-- C7 counterexample: a masked arm IS selected and its counters ARE
advanced.  `exppp_select_arm` on a fresh two-arm instance with arm 0
masked plays its round-robin phase and returns arm 0, incrementing both
`t` and `pulls[0]` — the selector never reads the mask
(src/afl-fuzz-one.c:188-198). -/
theorem C7_masked_arm_selected_counterexample :
    (exppp_select_arm ⟨2, 0, [0, 0]⟩ (some [1, 0]) 0).2 = 0 ∧
    maskedAt (some [1, 0]) 0 = true ∧
    (exppp_select_arm ⟨2, 0, [0, 0]⟩ (some [1, 0]) 0).1 =
      ⟨2, 1, [1, 0]⟩ := by
  decide

/-- C7 (amended): the weight-based selectors Exp3-PP and Exp3-IX ignore
their mask argument entirely — the selection result is independent of the
mask, a masked arm can be picked, and the step counter `t` is always
advanced; on such a masked pick the havoc driver skips mutation and
execution but still updates the operator bandit with reward 0 and leaves
the batch bandit untouched (the `L_EXP_INVALID` path).  The argmax-style
selectors do skip masked arms: whenever some arm is unmasked (and the Beta
samples are nonnegative, as `gsl_ran_beta`'s are), `ts_select_arm` returns
an unmasked arm. -/
theorem C7_masking_behaviour :
    (∀ (s : ExpppSel) (mask : Option (List Nat)) (pick : Nat),
        exppp_select_arm s mask pick = exppp_select_arm s none pick ∧
        (exppp_select_arm s mask pick).1.t = s.t + 1) ∧
    (∀ (s : ExpixSel) (mask : Option (List Nat)) (target : ℚ),
        expix_select_arm s mask target = expix_select_arm s none target ∧
        (expix_select_arm s mask target).1.t = s.t + 1) ∧
    (∀ c t', havocBanditUpdates HavocPath.maskedSkip c t' =
        (some (c, 0), none)) ∧
    (∀ (n : Nat) (mask : Option (List Nat)) (sampled : Nat → ℚ),
        (∀ i, 0 ≤ sampled i) →
        (∃ i ∈ List.range n, maskedAt mask i = false) →
        maskedAt mask (ts_select_arm n mask sampled) = false) := by
  refine ⟨fun s mask pick => ⟨rfl, rfl⟩,
    fun s mask target => ⟨rfl, rfl⟩,
    fun c t' => rfl,
    fun n mask sampled hs hex => ?_⟩
  exact ts_fold_unmasked mask sampled hs (List.range n) (-1, 0)
    (fun h => absurd h (by norm_num)) hex

/-- C7 witness: the Thompson selector with arm 0 masked returns an
unmasked arm. -/
theorem C7_masking_behaviour_witness :
    maskedAt (some [1, 0]) (ts_select_arm 2 (some [1, 0])
      (fun i => (i : ℚ))) = false :=
  C7_masking_behaviour.2.2.2 2 (some [1, 0]) (fun i => (i : ℚ))
    (fun i => Nat.cast_nonneg i) ⟨1, by decide, by decide⟩

/-! ## C3: fine-grained havoc restore -/

theorem flipBit_flipBit (buf : List Nat) (p : Nat) :
    flipBit (flipBit buf p) p = buf := by
  unfold flipBit
  by_cases h : p / 8 < buf.length
  · rw [getD_set_self _ _ _ h, List.set_set, Nat.xor_assoc, Nat.xor_self,
      Nat.xor_zero, set_getD_self]
  · have hle : buf.length ≤ p / 8 := le_of_not_lt h
    rw [set_of_length_le _ _ _ hle, set_of_length_le _ _ _ hle]

theorem havocBit1Go_mpos_lt (tl : Nat) (mask : List Nat)
    (draws : Nat → Nat × Nat) :
    ∀ (k i : Nat) (buf mpos : List Nat) (j : Nat), j < i →
      ((havocBit1Go tl mask draws buf mpos i k).2.1).getD j 0 =
        mpos.getD j 0 := by
  intro k
  induction k with
  | zero => intro i buf mpos j _; rfl
  | succ k ih =>
    intro i buf mpos j hj
    cases hq : get_random_modifiable_posn 1 1 tl mask
        (draws i).1 (draws i).2 with
    | none => simp [havocBit1Go, hq]
    | some pos =>
      simp only [havocBit1Go, hq]
      rw [ih (i + 1) _ _ j (by omega), getD_set_ne _ _ _ _ (by omega)]

theorem havocBit1Go_restore (tl : Nat) (mask : List Nat)
    (draws : Nat → Nat × Nat) :
    ∀ (k i : Nat) (buf mpos : List Nat),
      i + k ≤ mpos.length →
      (havocBit1Go tl mask draws buf mpos i k).2.2 = i + k →
      ((List.range' i k).reverse).foldl
        (fun b j => flipBit b
          (((havocBit1Go tl mask draws buf mpos i k).2.1).getD j 0))
        ((havocBit1Go tl mask draws buf mpos i k).1) = buf := by
  intro k
  induction k with
  | zero => intro i buf mpos _ _; simp [havocBit1Go]
  | succ k ih =>
    intro i buf mpos h1 h2
    cases hq : get_random_modifiable_posn 1 1 tl mask
        (draws i).1 (draws i).2 with
    | none =>
      exfalso
      simp only [havocBit1Go, hq] at h2
      omega
    | some pos =>
      simp only [havocBit1Go, hq] at h2 ⊢
      have h1' : (i + 1) + k ≤ (mpos.set i pos).length := by
        rw [List.length_set]; omega
      have h2' : (havocBit1Go tl mask draws (flipBit buf pos)
          (mpos.set i pos) (i + 1) k).2.2 = (i + 1) + k := by omega
      have hrec := ih (i + 1) (flipBit buf pos) (mpos.set i pos) h1' h2'
      rw [List.range'_succ, List.reverse_cons, List.foldl_append,
        List.foldl_cons, List.foldl_nil, hrec]
      have hset : ((havocBit1Go tl mask draws (flipBit buf pos)
          (mpos.set i pos) (i + 1) k).2.1).getD i 0 = pos := by
        rw [havocBit1Go_mpos_lt tl mask draws k (i + 1) _ _ i (by omega),
          getD_set_self _ _ _ (by omega)]
      rw [hset, flipBit_flipBit]

theorem writeBytes_length (buf : List Nat) (pos : Nat) (bytes : List Nat)
    (h : pos + bytes.length ≤ buf.length) :
    (writeBytes buf pos bytes).length = buf.length := by
  simp only [writeBytes, List.length_append, List.length_take,
    List.length_drop]
  omega

theorem writeBytes_readBytes (buf : List Nat) (pos w : Nat)
    (new : List Nat) (hw : new.length = w) (h : pos + w ≤ buf.length) :
    writeBytes (writeBytes buf pos new) pos (readBytes w buf pos) = buf := by
  have htake : (buf.take pos).length = pos := by
    rw [List.length_take]; omega
  have hread : (readBytes w buf pos).length = w := by
    simp only [readBytes, List.length_take, List.length_drop]; omega
  unfold writeBytes
  rw [List.append_assoc (buf.take pos) new (buf.drop (pos + new.length))]
  rw [List.take_left' htake]
  have hdrop : ((buf.take pos ++ (new ++ buf.drop (pos + new.length)))).drop
      (pos + (readBytes w buf pos).length) = buf.drop (pos + w) := by
    rw [hread, show pos + w = (buf.take pos).length + w by omega,
      List.drop_append, show w = new.length by omega, List.drop_left, htake]
  rw [hdrop]
  have hta : buf.take pos ++ readBytes w buf pos = buf.take (pos + w) := by
    rw [List.take_add]; rfl
  rw [hta, List.take_append_drop]

theorem havocByteGo_restore (w : Nat) :
    ∀ (writes : List (Nat × List Nat)) (buf : List Nat),
      (∀ pw ∈ writes, pw.1 + w ≤ buf.length ∧ pw.2.length = w) →
      havocByteRestore (havocByteGo w buf writes).1
        (havocByteGo w buf writes).2 = buf := by
  intro writes
  induction writes with
  | nil => intro buf _; rfl
  | cons pw rest ih =>
    intro buf hb
    obtain ⟨hpos, hlen⟩ := hb pw (List.mem_cons_self pw rest)
    have hkeep : (writeBytes buf pw.1 pw.2).length = buf.length :=
      writeBytes_length buf pw.1 pw.2 (by omega)
    have hrest : ∀ q ∈ rest,
        q.1 + w ≤ (writeBytes buf pw.1 pw.2).length ∧ q.2.length = w := by
      intro q hq
      rw [hkeep]
      exact hb q (List.mem_cons_of_mem pw hq)
    obtain ⟨pos, new⟩ := pw
    simp only [havocByteGo, havocByteRestore, List.reverse_cons,
      List.foldl_append, List.foldl_cons, List.foldl_nil]
    have := ih (writeBytes buf pos new) hrest
    simp only [havocByteRestore] at this
    rw [this]
    exact writeBytes_readBytes buf pos w new hlen (by simpa using hpos)

/-- C3 counterexample: a `FLIP_BIT1` iteration whose position query failed
immediately (no `OVERWRITE_SAFE` byte in the mask, inner loop broken with
0 of 1 sub-applications performed) still replays all `use_stacking`
entries of the stale `mutation_pos` array during restore
(src/afl-fuzz-one.c:4823 loops from `use_stacking - 1` down to 0), so the
stale entry 13 flips a bit and `out_buf` ends up `[0, 4, 0] ≠ [0, 0, 0]`. -/
theorem C3_early_break_restore_counterexample :
    (havocBit1 1 3 [0, 0, 0] (fun _ => (0, 0)) [0, 0, 0] [13]).2.2 = 0 ∧
    havocBit1Restore 1
      (havocBit1 1 3 [0, 0, 0] (fun _ => (0, 0)) [0, 0, 0] [13]).1
      (havocBit1 1 3 [0, 0, 0] (fun _ => (0, 0)) [0, 0, 0] [13]).2.1 =
      [0, 4, 0] ∧
    ([0, 4, 0] : List Nat) ≠ [0, 0, 0] := by
  decide

/-- C3 (amended): for fine-grained havoc iterations that are not abandoned,
replaying the recorded positions/values in reverse restores
`out_buf = in_buf` PROVIDED the inner loop completed all `use_stacking`
sub-applications (the position query never failed): shown for the
`FLIP_BIT1` loop against the recorded `mutation_pos` entries, and for the
1-, 2- and 4-byte overwrite operators with their saved data.  When the
query breaks the loop early, the restore replays stale array entries and
the buffer need not be restored (see the counterexample). -/
theorem C3_fine_grained_restore :
    (∀ (use_stacking temp_len : Nat) (mask : List Nat)
        (draws : Nat → Nat × Nat) (buf mpos : List Nat),
        use_stacking ≤ mpos.length →
        (havocBit1 use_stacking temp_len mask draws buf mpos).2.2 =
          use_stacking →
        havocBit1Restore use_stacking
          (havocBit1 use_stacking temp_len mask draws buf mpos).1
          (havocBit1 use_stacking temp_len mask draws buf mpos).2.1 =
          buf) ∧
    (∀ (w : Nat) (buf : List Nat) (writes : List (Nat × List Nat)),
        (∀ pw ∈ writes, pw.1 + w ≤ buf.length ∧ pw.2.length = w) →
        havocByteRestore (havocByteGo w buf writes).1
          (havocByteGo w buf writes).2 = buf) := by
  constructor
  · intro s tl mask draws buf mpos h1 h2
    have := havocBit1Go_restore tl mask draws s 0 buf mpos
      (by omega) (by simpa [havocBit1] using h2)
    simpa [havocBit1, havocBit1Restore, List.range_eq_range'] using this
  · intro w buf writes hb
    exact havocByteGo_restore w writes buf hb

/-- C3 witness: a completed two-flip iteration and a completed 2-byte
overwrite both restore exactly. -/
theorem C3_fine_grained_restore_witness :
    havocBit1Restore 2
      (havocBit1 2 3 [1, 1, 1] (fun _ => (0, 0)) [5, 6, 7] [0, 0]).1
      (havocBit1 2 3 [1, 1, 1] (fun _ => (0, 0)) [5, 6, 7] [0, 0]).2.1 =
      [5, 6, 7] ∧
    havocByteRestore (havocByteGo 2 [1, 2, 3, 4] [(1, [9, 9])]).1
      (havocByteGo 2 [1, 2, 3, 4] [(1, [9, 9])]).2 = [1, 2, 3, 4] :=
  ⟨C3_fine_grained_restore.1 2 3 [1, 1, 1] (fun _ => (0, 0)) [5, 6, 7]
      [0, 0] (by decide) (by decide),
    C3_fine_grained_restore.2 2 [1, 2, 3, 4] [(1, [9, 9])]
      (by decide)⟩

/-! ## C8: the Exp3-IX weight update -/

/-- C8: `expix_add_reward` computes `η_t = sqrt(2·ln K / K / t)` and
`γ_t = η_t / 2`, adds the loss `(1 − r)/(w_a + γ_t)` to the chosen arm's
cumulative loss (leaving the other losses unchanged), sets every weight to
`exp(−η_t·(ℓ_i − min_j ℓ_j))` divided by the sum of these values, and the
resulting weights sum to 1. -/
theorem C8_expix_add_reward_spec {K : Nat} [NeZero K] (s : ExpixR K)
    (arm : Fin K) (r : ℝ) :
    (expix_add_reward s arm r).losses arm =
      s.losses arm + (1 - r) /
        (s.weights arm + Real.sqrt (2 * Real.log K / K / s.t) / 2) ∧
    (∀ i, i ≠ arm → (expix_add_reward s arm r).losses i = s.losses i) ∧
    (∀ i, (expix_add_reward s arm r).weights i =
      Real.exp (-(Real.sqrt (2 * Real.log K / K / s.t)) *
          ((expix_add_reward s arm r).losses i -
            Finset.univ.inf' Finset.univ_nonempty
              (expix_add_reward s arm r).losses)) /
        ∑ j, Real.exp (-(Real.sqrt (2 * Real.log K / K / s.t)) *
          ((expix_add_reward s arm r).losses j -
            Finset.univ.inf' Finset.univ_nonempty
              (expix_add_reward s arm r).losses))) ∧
    ∑ i, (expix_add_reward s arm r).weights i = 1 := by
  refine ⟨?_, ?_, ?_, ?_⟩
  · simp [expix_add_reward]
  · intro i hi
    simp [expix_add_reward, Function.update_noteq hi]
  · intro i
    rfl
  · have hpos : (0 : ℝ) <
        ∑ j, Real.exp (-(Real.sqrt (2 * Real.log K / K / s.t)) *
          ((expix_add_reward s arm r).losses j -
            Finset.univ.inf' Finset.univ_nonempty
              (expix_add_reward s arm r).losses)) :=
      Finset.sum_pos (fun j _ => Real.exp_pos _) Finset.univ_nonempty
    show (∑ i, Real.exp _ / _) = 1
    rw [← Finset.sum_div]
    exact div_self (ne_of_gt hpos)

/-- C8 witness: the update on a concrete two-arm instance at `t = 1`
leaves weights summing to 1. -/
theorem C8_expix_add_reward_spec_witness :
    ∑ i, (expix_add_reward
        (⟨1, fun _ => 1 / 2, fun _ => 0, fun _ => 0⟩ : ExpixR 2)
        0 1).weights i = 1 :=
  (C8_expix_add_reward_spec
    (⟨1, fun _ => 1 / 2, fun _ => 0, fun _ => 0⟩ : ExpixR 2) 0 1).2.2.2

/-! ## C9: ADWIN invariant preservation -/

theorem nodeWeight_append (l1 l2 : List (List Nat)) :
    ∀ k, nodeWeight (l1 ++ l2) k = nodeWeight l1 k +
      nodeWeight l2 (k + l1.length) := by
  induction l1 with
  | nil => intro k; simp [nodeWeight]
  | cons n t ih =>
    intro k
    show n.length * 2 ^ k + nodeWeight (t ++ l2) (k + 1) = _
    rw [ih (k + 1), show k + 1 + t.length = k + (t.length + 1) by omega]
    simp only [nodeWeight, List.length_cons]
    omega

theorem nodesTotal_append (l1 l2 : List (List Nat)) :
    nodesTotal (l1 ++ l2) = nodesTotal l1 + nodesTotal l2 := by
  simp [nodesTotal]

theorem exists_cons_cons_of_two_le {node : List Nat}
    (h : 2 ≤ node.length) : ∃ a b z, node = a :: b :: z := by
  rcases node with _ | ⟨a, _ | ⟨b, z⟩⟩
  · simp at h
  · simp at h
  · exact ⟨a, b, z, rfl⟩

theorem norm_go_weight (M : Nat) (hM : 1 ≤ M) :
    ∀ (rest : List (List Nat)) (node : List Nat) (k : Nat),
      nodeWeight ((adwin_normlize_go M node rest).1) k =
        nodeWeight (node :: rest) k := by
  intro rest
  induction rest with
  | nil =>
    intro node k
    rw [adwin_normlize_go]
    by_cases hn : node.length ≤ M
    · simp [hn]
    · rw [if_neg hn]
      obtain ⟨a, b, z, rfl⟩ := exists_cons_cons_of_two_le
        (show 2 ≤ node.length by omega)
      simp only [nodeWeight, List.drop_succ_cons, List.drop_zero,
        List.length_cons, List.length_nil, List.length_singleton]
      rw [pow_succ]
      ring
  | cons m rest' ih =>
    intro node k
    rw [adwin_normlize_go]
    by_cases hn : node.length ≤ M
    · simp [hn]
    · rw [if_neg hn]
      obtain ⟨a, b, z, rfl⟩ := exists_cons_cons_of_two_le
        (show 2 ≤ node.length by omega)
      show (z.length * 2 ^ k +
        nodeWeight ((adwin_normlize_go M
          (m ++ [(a :: b :: z).getD 0 0 + (a :: b :: z).getD 1 0])
          rest').1) (k + 1)) = _
      rw [ih (m ++ [(a :: b :: z).getD 0 0 + (a :: b :: z).getD 1 0])
        (k + 1)]
      simp only [nodeWeight, List.length_append, List.length_cons,
        List.length_singleton, List.length_nil]
      rw [show k + 1 + 1 = k + 2 by omega, pow_succ]
      ring

theorem norm_go_total (M : Nat) (hM : 1 ≤ M) :
    ∀ (rest : List (List Nat)) (node : List Nat),
      nodesTotal ((adwin_normlize_go M node rest).1) =
        nodesTotal (node :: rest) := by
  intro rest
  induction rest with
  | nil =>
    intro node
    rw [adwin_normlize_go]
    by_cases hn : node.length ≤ M
    · simp [hn]
    · rw [if_neg hn]
      obtain ⟨a, b, z, rfl⟩ := exists_cons_cons_of_two_le
        (show 2 ≤ node.length by omega)
      simp only [nodesTotal, List.drop_succ_cons, List.drop_zero,
        List.map_cons, List.map_nil, List.sum_cons, List.sum_nil,
        List.getD_cons_zero, List.getD_cons_succ]
      omega
  | cons m rest' ih =>
    intro node
    rw [adwin_normlize_go]
    by_cases hn : node.length ≤ M
    · simp [hn]
    · rw [if_neg hn]
      obtain ⟨a, b, z, rfl⟩ := exists_cons_cons_of_two_le
        (show 2 ≤ node.length by omega)
      show (z.sum + nodesTotal ((adwin_normlize_go M
          (m ++ [(a :: b :: z).getD 0 0 + (a :: b :: z).getD 1 0])
          rest').1)) = _
      rw [ih (m ++ [(a :: b :: z).getD 0 0 + (a :: b :: z).getD 1 0])]
      simp only [nodesTotal, List.map_cons, List.sum_cons, List.map_append,
        List.sum_append, List.map_nil, List.sum_nil, List.getD_cons_zero,
        List.getD_cons_succ]
      omega

theorem norm_go_length (M : Nat) :
    ∀ (rest : List (List Nat)) (node : List Nat),
      ((adwin_normlize_go M node rest).1).length =
        (node :: rest).length + (adwin_normlize_go M node rest).2 := by
  intro rest
  induction rest with
  | nil =>
    intro node
    rw [adwin_normlize_go]
    by_cases hn : node.length ≤ M <;> simp [hn]
  | cons m rest' ih =>
    intro node
    rw [adwin_normlize_go]
    by_cases hn : node.length ≤ M
    · simp [hn]
    · rw [if_neg hn]
      show ((adwin_normlize_go M
          (m ++ [node.getD 0 0 + node.getD 1 0]) rest').1).length + 1 = _
      rw [ih (m ++ [node.getD 0 0 + node.getD 1 0])]
      simp only [List.length_cons]
      omega

theorem norm_go_cons (M : Nat) (node : List Nat) (rest : List (List Nat)) :
    ∃ hd tl, (adwin_normlize_go M node rest).1 = hd :: tl ∧
      (hd = node ∨ (hd = node.drop 2 ∧ M < node.length)) := by
  rw [adwin_normlize_go]
  by_cases hn : node.length ≤ M
  · exact ⟨node, rest, by simp [hn], Or.inl rfl⟩
  · cases rest with
    | nil =>
      refine ⟨node.drop 2, [[node.getD 0 0 + node.getD 1 0]], ?_,
        Or.inr ⟨rfl, by omega⟩⟩
      simp [hn]
    | cons m rest' =>
      refine ⟨node.drop 2,
        (adwin_normlize_go M (m ++ [node.getD 0 0 + node.getD 1 0])
          rest').1, ?_, Or.inr ⟨rfl, by omega⟩⟩
      simp [hn]

theorem norm_go_nonempty (M : Nat) (hM : 2 ≤ M) :
    ∀ (rest : List (List Nat)) (node : List Nat),
      (∀ n ∈ rest, n ≠ []) →
      ∀ n ∈ ((adwin_normlize_go M node rest).1).tail, n ≠ [] := by
  intro rest
  induction rest with
  | nil =>
    intro node _
    rw [adwin_normlize_go]
    by_cases hn : node.length ≤ M
    · simp [hn]
    · rw [if_neg hn]
      intro n hn'
      simp only [List.tail_cons, List.mem_singleton] at hn'
      subst hn'
      simp
  | cons m rest' ih =>
    intro node hne
    rw [adwin_normlize_go]
    by_cases hn : node.length ≤ M
    · simpa [hn] using hne
    · rw [if_neg hn]
      intro n hn'
      simp only [List.tail_cons] at hn'
      set s := node.getD 0 0 + node.getD 1 0 with hs
      obtain ⟨hd, tl, heq, hcase⟩ := norm_go_cons M (m ++ [s]) rest'
      rw [heq] at hn'
      rcases List.mem_cons.mp hn' with h | h
      · subst h
        rcases hcase with hcase | ⟨hcase, hlen⟩
        · subst hcase; simp
        · subst hcase
          have h3 : 3 ≤ (m ++ [s]).length := by omega
          intro hnil
          have h2 : (m ++ [s]).length ≤ 2 := by
            have := List.drop_eq_nil_iff.mp hnil
            omega
          omega
      · have htl : n ∈ ((adwin_normlize_go M (m ++ [s]) rest').1).tail := by
          rw [heq]; exact h
        exact ih (m ++ [s]) (fun q hq => hne q (List.mem_cons_of_mem m hq))
          n htl

theorem adwin_expire_inv (a : Adwin) (h : AdwinInv a)
    (ht : (a.nodes.getLast?).getD [] ≠ []) :
    AdwinInv (adwin_expire_last_window a) := by
  obtain ⟨nodes, W, sm, lastIdx, numAdd⟩ := a
  obtain ⟨hW, hS, hL, hNE⟩ := h
  simp only at hW hS hL hNE ht ⊢
  have hnn : nodes ≠ [] := by
    intro h0; rw [h0] at hL; simp at hL
  obtain ⟨F, T, hFT⟩ : ∃ F T, nodes = F ++ [T] :=
    ⟨nodes.dropLast, nodes.getLast hnn,
      (List.dropLast_append_getLast hnn).symm⟩
  subst hFT
  have hgl : ((F ++ [T]).getLast?).getD [] = T := by
    rw [List.getLast?_concat]; rfl
  obtain ⟨w, ws, rfl⟩ : ∃ w ws, T = w :: ws := by
    cases T with
    | nil => rw [hgl] at ht; exact absurd rfl ht
    | cons w ws => exact ⟨w, ws, rfl⟩
  have hlen : (F ++ [w :: ws]).length = F.length + 1 := by simp
  have hLF : lastIdx = F.length := by omega
  have hWF : W = nodeWeight F 0 + (ws.length + 1) * 2 ^ F.length := by
    rw [nodeWeight_append] at hW
    simpa [nodeWeight] using hW
  have hSF : sm = nodesTotal F + (w + ws.sum) := by
    rw [nodesTotal_append] at hS
    simpa [nodesTotal] using hS
  have hmul : (ws.length + 1) * 2 ^ F.length =
      ws.length * 2 ^ F.length + 2 ^ F.length := by
    rw [Nat.succ_mul]
  simp only [adwin_expire_last_window, hgl, List.getD_cons_zero,
    List.dropLast_concat, List.drop_succ_cons, List.drop_zero]
  by_cases hws : ws = []
  · subst hws
    by_cases hF : F = []
    · subst hF
      simp only [List.isEmpty_nil, List.nil_append, List.length_singleton,
        Bool.true_and]
      rw [if_neg (by simp)]
      refine ⟨?_, ?_, ?_, ?_⟩
      · have hL0 : lastIdx = 0 := by simpa using hLF
        subst hL0
        simp only [nodeWeight, List.nil_append, List.length_nil, pow_zero,
          List.length_singleton] at hWF ⊢
        omega
      · simp only [nodesTotal, List.nil_append, List.map_nil, List.sum_nil,
          List.sum_cons, List.map_cons] at hSF ⊢
        omega
      · have hL0 : lastIdx = 0 := by simpa using hLF
        simp [hL0]
      · simp
    · have hcond : (List.isEmpty ([] : List Nat) && decide
          (2 ≤ (F ++ [[w]]).length)) = true := by
        simp only [List.isEmpty_nil, Bool.true_and, decide_eq_true_eq]
        have : F.length ≥ 1 := List.length_pos.mpr hF
        simp only [List.length_append, List.length_singleton]
        omega
      rw [if_pos hcond]
      refine ⟨?_, ?_, ?_, ?_⟩
      · rw [hWF, hLF]
        simp only [List.length_nil] at hmul ⊢
        omega
      · rw [hSF]
        simp only [List.sum_nil]
        omega
      · dsimp only
        have hF1 : F.length ≥ 1 := List.length_pos.mpr hF
        omega
      · intro n hn
        apply hNE
        rw [List.tail_append_left hF]
        exact List.mem_append_left _ hn
  · have hcond : (ws.isEmpty && decide
        (2 ≤ (F ++ [w :: ws]).length)) = false := by
      simp [List.isEmpty_iff, hws]
    rw [if_neg (by rw [hcond]; exact Bool.false_ne_true)]
    refine ⟨?_, ?_, ?_, ?_⟩
    · rw [hWF, hLF, hmul, nodeWeight_append]
      simp only [nodeWeight, Nat.zero_add]
      omega
    · rw [hSF, nodesTotal_append]
      simp only [nodesTotal, List.map_cons, List.sum_cons, List.map_nil,
        List.sum_nil]
      omega
    · simp only [List.length_append, List.length_singleton] at hlen ⊢
      omega
    · intro n hn
      by_cases hF : F = []
      · subst hF
        simp only [List.nil_append, List.tail_cons] at hn
        simp at hn
      · rw [List.tail_append_left hF] at hn
        rcases List.mem_append.mp hn with h | h
        · exact hNE n (by
            rw [List.tail_append_left hF]
            exact List.mem_append_left _ h)
        · simp only [List.mem_singleton] at h
          subst h
          exact hws

theorem findDrop_tail_ne (P : AdwinParams) (a : Adwin) (h : AdwinInv a)
    (hd : adwinFindDrop P a = true) :
    (a.nodes.getLast?).getD [] ≠ [] := by
  obtain ⟨hW, hS, hL, hNE⟩ := h
  rcases hnodes : a.nodes with _ | ⟨n, _ | ⟨m, rest⟩⟩
  · rw [hnodes] at hL; simp at hL
  · rcases hn : n with _ | ⟨x, xs⟩
    · exfalso
      subst hn
      simp [adwinFindDrop, hnodes, adwinWalkNodes, adwinWalkWins] at hd
    · simp
  · rw [List.getLast?_cons_cons, List.getLast?_eq_getLast _ (by simp)]
    rw [hnodes] at hNE
    have hne2 : m :: rest ≠ [] := by simp
    exact hNE _ (by simpa using List.getLast_mem hne2)

theorem adwinDropLoop_inv (P : AdwinParams) :
    ∀ (fuel : Nat) (a : Adwin), AdwinInv a →
      AdwinInv (adwinDropLoop P fuel a) := by
  intro fuel
  induction fuel with
  | zero => intro a h; exact h
  | succ fuel ih =>
    intro a h
    rw [adwinDropLoop]
    by_cases hfd : adwinFindDrop P a = true
    · rw [if_pos hfd]
      exact ih _ (adwin_expire_inv a h (findDrop_tail_ne P a h hfd))
    · rw [if_neg hfd]
      exact h

theorem adwin_normlize_inv (M : Nat) (hM : 2 ≤ M) (a : Adwin)
    (h : AdwinInv a) : AdwinInv (adwin_normlize_buckets M a) := by
  obtain ⟨nodes, W, sm, lastIdx, numAdd⟩ := a
  obtain ⟨hW, hS, hL, hNE⟩ := h
  simp only at hW hS hL hNE
  obtain ⟨hd0, tl0, rfl⟩ : ∃ hd0 tl0, nodes = hd0 :: tl0 := by
    cases nodes with
    | nil => simp at hL
    | cons x xs => exact ⟨x, xs, rfl⟩
  have h1 : (1 : Nat) ≤ M := by omega
  simp only [adwin_normlize_buckets, List.headD_cons, List.tail_cons]
  refine ⟨?_, ?_, ?_, ?_⟩
  · simpa [norm_go_weight M h1 tl0 hd0 0] using hW
  · simpa [norm_go_total M h1 tl0 hd0] using hS
  · simp only [norm_go_length M tl0 hd0]
    simp only [List.length_cons] at hL ⊢
    omega
  · exact norm_go_nonempty M hM tl0 hd0 (by simpa using hNE)

theorem adwin_add_elem_inv (P : AdwinParams) (hM : 2 ≤ P.M) (a : Adwin)
    (r : Nat) (h : AdwinInv a) : AdwinInv (adwin_add_elem P a r) := by
  have h1 : AdwinInv
      { nodes := ((a.nodes.headD []) ++ [r]) :: a.nodes.tail
        W := a.W + 1
        sum := a.sum + r
        lastIdx := a.lastIdx
        numAdd := a.numAdd } := by
    obtain ⟨nodes, W, sm, lastIdx, numAdd⟩ := a
    obtain ⟨hW, hS, hL, hNE⟩ := h
    simp only at hW hS hL hNE
    obtain ⟨hd0, tl0, rfl⟩ : ∃ hd0 tl0, nodes = hd0 :: tl0 := by
      cases nodes with
      | nil => simp at hL
      | cons x xs => exact ⟨x, xs, rfl⟩
    refine ⟨?_, ?_, ?_, ?_⟩
    · simp only [List.headD_cons, List.tail_cons, nodeWeight,
        List.length_append, List.length_singleton] at hW ⊢
      omega
    · simp only [List.headD_cons, List.tail_cons, nodesTotal,
        List.map_cons, List.sum_cons, List.sum_append, List.sum_nil,
        List.sum_singleton] at hS ⊢
      omega
    · simpa using hL
    · simpa using hNE
  have h2 := adwin_normlize_inv P.M hM _ h1
  rw [adwin_add_elem]
  by_cases hint : (adwin_normlize_buckets P.M
      { nodes := ((a.nodes.headD []) ++ [r]) :: a.nodes.tail
        W := a.W + 1
        sum := a.sum + r
        lastIdx := a.lastIdx
        numAdd := a.numAdd }).numAdd + 1 ≠ P.dropInterval
  · rw [if_pos hint]
    obtain ⟨i1, i2, i3, i4⟩ := h2
    exact ⟨i1, i2, i3, i4⟩
  · rw [if_neg hint]
    rw [adwin_drop_last_till_identical]
    have h3 : AdwinInv
        { adwin_normlize_buckets P.M
            { nodes := ((a.nodes.headD []) ++ [r]) :: a.nodes.tail
              W := a.W + 1
              sum := a.sum + r
              lastIdx := a.lastIdx
              numAdd := a.numAdd } with numAdd := 0 } := by
      obtain ⟨i1, i2, i3, i4⟩ := h2
      exact ⟨i1, i2, i3, i4⟩
    by_cases hst : (adwin_normlize_buckets P.M
        { nodes := ((a.nodes.headD []) ++ [r]) :: a.nodes.tail
          W := a.W + 1
          sum := a.sum + r
          lastIdx := a.lastIdx
          numAdd := a.numAdd } : Adwin).W < P.minStart
    · rw [if_pos hst]
      exact h3
    · rw [if_neg hst]
      exact adwinDropLoop_inv P _ _ h3

/-- C9: after every `adwin_add_elem` (bucket normalisation and any windows
expired by change detection included), the ADWIN instance satisfies
`W = Σ_k |node_k|·2^k` and `sum = Σ_k Σ_i node_k[i]` — provided it
satisfied the structural invariant before the add, the per-node bucket
capacity `M` is at least 2, and for every change-detection decision
procedure. -/
theorem C9_adwin_add_elem_invariant (P : AdwinParams) (a : Adwin) (r : Nat)
    (hM : 2 ≤ P.M) (h : AdwinInv a) :
    (adwin_add_elem P a r).W = nodeWeight (adwin_add_elem P a r).nodes 0 ∧
    (adwin_add_elem P a r).sum = nodesTotal (adwin_add_elem P a r).nodes :=
  ⟨(adwin_add_elem_inv P hM a r h).1, (adwin_add_elem_inv P hM a r h).2.1⟩

/-- C9 witness: one add on a fresh instance with concrete parameters. -/
theorem C9_adwin_add_elem_invariant_witness :
    (adwin_add_elem ⟨2, 10, 3, 1, fun _ _ _ _ _ _ => false⟩ initAdwin 1).W =
      nodeWeight (adwin_add_elem ⟨2, 10, 3, 1, fun _ _ _ _ _ _ => false⟩
        initAdwin 1).nodes 0 ∧
    (adwin_add_elem ⟨2, 10, 3, 1, fun _ _ _ _ _ _ => false⟩
        initAdwin 1).sum =
      nodesTotal (adwin_add_elem ⟨2, 10, 3, 1, fun _ _ _ _ _ _ => false⟩
        initAdwin 1).nodes :=
  C9_adwin_add_elem_invariant ⟨2, 10, 3, 1, fun _ _ _ _ _ _ => false⟩
    initAdwin 1 (by decide) (by decide)

end SloptAfl
